import Mathlib

/-!
A verification development for the `fuzzyprojectfind` tool (`main.go`).

The file shallowly embeds the program's core:

* `fuzzyMatch` — the reverse greedy fuzzy matcher (main.go:131-154);
* `filterProjects` — the per-query filter/rank stage (main.go:161-194);
* `walkFast` and `findProjects` — the aggregate-then-decide directory
  walker and the project detector (main.go:48-129);
* `saveCache`/`loadCache` — the JSON cache codec (main.go:207-227),
  with the `encoding/json` behaviour for this document shape modelled
  explicitly.

Go strings are modelled as lists of Unicode scalar values.  Go's
`strings.ToLower` is modelled by `Char.toLower`, which lowercases the
ASCII range; the program only feeds it filesystem paths and typed
queries.
-/

/-- Go strings, modelled as lists of runes. -/
abbrev GoStr := List Char

/-! ## The fuzzy matcher (main.go:131-154) -/

/-- The scanning loop of `fuzzyMatch` (main.go:140-149).  The Go loop moves
`qIdx` and `tIdx` from the back of each string toward the front; here both
strings arrive reversed, `k` counts how many candidate characters have been
consumed from the tail (so the Go index is `tIdx = len - 1 - k`), and `last`
holds the value of `k` at the previous match (so `lastIdx = len - 1 - last`
and the Go increment `min(lastIdx - tIdx, 3)` is `min (k - last) 3`). -/
def fuzzyMatchAux : GoStr → GoStr → Nat → Option Nat → Int → Bool × Int
  | [], _, _, _, score => (true, score)
  | _ :: _, [], _, _, _ => (false, 0)
  | q :: qs, t :: ts, k, last, score =>
    if q = t then
      fuzzyMatchAux qs ts (k + 1) (some k)
        (match last with
          | some l => score + min ((k : Int) - (l : Int)) 3
          | none => score)
    else
      fuzzyMatchAux (q :: qs) ts (k + 1) last score

/-- fuzzyMatch (main.go:131-154): lowercase both strings, then run the
backward scan; returns whether the query matched and the clustering score. -/
def fuzzyMatch (query text : GoStr) : Bool × Int :=
  fuzzyMatchAux ((query.map Char.toLower).reverse) ((text.map Char.toLower).reverse) 0 none 0

/-- The scan succeeds exactly when the (reversed) query is a subsequence of
the (reversed) candidate; the accumulators are irrelevant to success. -/
theorem fuzzyMatchAux_isMatch (t : GoStr) :
    ∀ (q : GoStr) (k : Nat) (last : Option Nat) (score : Int),
      (fuzzyMatchAux q t k last score).1 = true ↔ q.Sublist t := by
  induction t with
  | nil =>
    intro q k last score
    cases q with
    | nil => simp [fuzzyMatchAux]
    | cons x xs =>
      simp only [fuzzyMatchAux]
      constructor
      · intro h; cases h
      · intro h; cases h
  | cons y ts ih =>
    intro q k last score
    cases q with
    | nil => simp [fuzzyMatchAux, List.nil_sublist]
    | cons x xs =>
      by_cases hxy : x = y
      · subst hxy
        simp only [fuzzyMatchAux, if_true]
        rw [ih, List.cons_sublist_cons]
      · simp only [fuzzyMatchAux, if_neg hxy]
        rw [ih]
        constructor
        · intro h; exact List.sublist_cons_of_sublist y h
        · intro h
          cases h with
          | cons _ h => exact h
          | cons₂ => exact absurd rfl hxy

/-- When the scan fails it returns exactly `(false, 0)` (main.go:150-152). -/
theorem fuzzyMatchAux_false (t : GoStr) :
    ∀ (q : GoStr) (k : Nat) (last : Option Nat) (score : Int),
      (fuzzyMatchAux q t k last score).1 = false →
      fuzzyMatchAux q t k last score = (false, 0) := by
  induction t with
  | nil =>
    intro q k last score h
    cases q with
    | nil => simp [fuzzyMatchAux] at h
    | cons x xs => rfl
  | cons y ts ih =>
    intro q k last score h
    cases q with
    | nil => simp [fuzzyMatchAux] at h
    | cons x xs =>
      by_cases hxy : x = y
      · subst hxy
        simp only [fuzzyMatchAux, if_true] at h ⊢
        exact ih _ _ _ _ h
      · simp only [fuzzyMatchAux, if_neg hxy] at h ⊢
        exact ih _ _ _ _ h

/-- Appending extra candidate characters after the scan has already consumed
the whole query changes nothing: the loop exits as soon as `qIdx < 0`
(main.go:140).  The extension appears at the end of the reversed candidate,
which corresponds to prepending directory components in the original path. -/
theorem fuzzyMatchAux_append (t : GoStr) :
    ∀ (q ext : GoStr) (k : Nat) (last : Option Nat) (score : Int),
      (fuzzyMatchAux q t k last score).1 = true →
      fuzzyMatchAux q (t ++ ext) k last score = fuzzyMatchAux q t k last score := by
  induction t with
  | nil =>
    intro q ext k last score h
    cases q with
    | nil => cases ext <;> rfl
    | cons x xs => simp [fuzzyMatchAux] at h
  | cons y ts ih =>
    intro q ext k last score h
    cases q with
    | nil => rfl
    | cons x xs =>
      by_cases hxy : x = y
      · subst hxy
        simp only [List.cons_append, fuzzyMatchAux, if_true] at h ⊢
        exact ih _ _ _ _ _ h
      · simp only [List.cons_append, fuzzyMatchAux, if_neg hxy] at h ⊢
        exact ih _ _ _ _ _ h

/-- The score accumulator never decreases as long as every recorded previous
match position lies strictly before the current position, which is an
invariant of the scan. -/
theorem fuzzyMatchAux_score_nonneg (t : GoStr) :
    ∀ (q : GoStr) (k : Nat) (last : Option Nat) (score : Int),
      (∀ l, last = some l → l < k) → 0 ≤ score →
      0 ≤ (fuzzyMatchAux q t k last score).2 := by
  induction t with
  | nil =>
    intro q k last score hlt hs
    cases q with
    | nil => exact hs
    | cons x xs => exact le_refl 0
  | cons y ts ih =>
    intro q k last score hlt hs
    cases q with
    | nil => exact hs
    | cons x xs =>
      by_cases hxy : x = y
      · subst hxy
        simp only [fuzzyMatchAux, if_true]
        apply ih
        · intro l hl
          cases hl
          exact Nat.lt_succ_self k
        · cases last with
          | none => exact hs
          | some l =>
            have hlk := hlt l rfl
            have h1 : (1 : Int) ≤ (k : Int) - (l : Int) := by
              have := (Int.ofNat_lt).mpr hlk
              omega
            have : (0 : Int) ≤ min ((k : Int) - (l : Int)) 3 := le_min (by omega) (by omega)
            simpa using add_nonneg hs this
      · simp only [fuzzyMatchAux, if_neg hxy]
        apply ih
        · intro l hl
          exact Nat.lt_succ_of_lt (hlt l hl)
        · exact hs

/-- Upper bound for the scan started with a previous match already recorded:
each remaining query character can add at most 3. -/
theorem fuzzyMatchAux_score_le_some (t : GoStr) :
    ∀ (q : GoStr) (k l : Nat) (score : Int), l < k → 0 ≤ score →
      (fuzzyMatchAux q t k (some l) score).2 ≤ score + 3 * q.length := by
  induction t with
  | nil =>
    intro q k l score hlk hs
    cases q with
    | nil => simp [fuzzyMatchAux]
    | cons x xs =>
      simp only [fuzzyMatchAux]
      have : (0 : Int) ≤ 3 * (x :: xs).length := by positivity
      omega
  | cons y ts ih =>
    intro q k l score hlk hs
    cases q with
    | nil =>
      simp [fuzzyMatchAux]
    | cons x xs =>
      by_cases hxy : x = y
      · subst hxy
        simp only [fuzzyMatchAux, if_true]
        have hmin3 : min ((k : Int) - (l : Int)) 3 ≤ 3 := min_le_right _ _
        have hmin0 : (0 : Int) ≤ min ((k : Int) - (l : Int)) 3 := by
          have := (Int.ofNat_lt).mpr hlk
          exact le_min (by omega) (by omega)
        have hrec := ih xs (k + 1) k (score + min ((k : Int) - (l : Int)) 3)
          (Nat.lt_succ_self k) (add_nonneg hs hmin0)
        simp only [List.length_cons]
        calc (fuzzyMatchAux xs ts (k + 1) (some k) (score + min ((k : Int) - (l : Int)) 3)).2
            ≤ score + min ((k : Int) - (l : Int)) 3 + 3 * xs.length := hrec
          _ ≤ score + 3 * (xs.length + 1) := by omega
      · simp only [fuzzyMatchAux, if_neg hxy]
        exact ih _ _ _ _ (Nat.lt_succ_of_lt hlk) hs

/-- Upper bound for the scan started with no previous match: the first match
adds nothing (main.go:142), so a non-empty query of length `n` can score at
most `3 * (n - 1)`. -/
theorem fuzzyMatchAux_score_le_none (t : GoStr) :
    ∀ (q : GoStr) (k : Nat) (score : Int), q ≠ [] → 0 ≤ score →
      (fuzzyMatchAux q t k none score).2 ≤ score + 3 * ((q.length : Int) - 1) := by
  induction t with
  | nil =>
    intro q k score hq hs
    cases q with
    | nil => exact absurd rfl hq
    | cons x xs =>
      simp only [fuzzyMatchAux, List.length_cons]
      push_cast
      omega
  | cons y ts ih =>
    intro q k score hq hs
    cases q with
    | nil => exact absurd rfl hq
    | cons x xs =>
      by_cases hxy : x = y
      · subst hxy
        simp only [fuzzyMatchAux, if_true, List.length_cons]
        have hrec := fuzzyMatchAux_score_le_some ts xs (k + 1) k score (Nat.lt_succ_self k) hs
        push_cast
        omega
      · simp only [fuzzyMatchAux, if_neg hxy]
        exact ih _ _ _ hq hs

/-! ## Greedy match positions: a closed form for the score -/

/-- The positions (counted from the candidate's tail, in scan order) at which
the greedy backward scan of main.go:140-149 matches the query characters;
`none` when some query character exhausts the candidate. -/
def greedyPositions : GoStr → GoStr → Nat → Option (List Nat)
  | [], _, _ => some []
  | _ :: _, [], _ => none
  | q :: qs, t :: ts, k =>
    if q = t then (greedyPositions qs ts (k + 1)).map (fun ps => k :: ps)
    else greedyPositions (q :: qs) ts (k + 1)

/-- Sum of the capped gaps between a previous match position and the
following match positions: the contribution `min(lastIdx - tIdx, 3)` of
main.go:143 for each later match. -/
def clusterScore : Nat → List Nat → Int
  | _, [] => 0
  | prev, p :: ps => min ((p : Int) - (prev : Int)) 3 + clusterScore p ps

/-- Total score of a list of match positions: the first match contributes
nothing (main.go:142 requires `lastIdx >= 0`), each later one its capped
gap. -/
def scoreOf : List Nat → Int
  | [] => 0
  | p :: ps => clusterScore p ps

/-- The scan with a recorded previous match computes `clusterScore` of the
greedy positions. -/
theorem fuzzyMatchAux_eq_clusterScore (t : GoStr) :
    ∀ (q : GoStr) (k : Nat) (ps : List Nat), greedyPositions q t k = some ps →
      ∀ (l : Nat) (score : Int),
        fuzzyMatchAux q t k (some l) score = (true, score + clusterScore l ps) := by
  induction t with
  | nil =>
    intro q k ps hps l score
    cases q with
    | nil =>
      simp only [greedyPositions, Option.some.injEq] at hps
      subst hps
      simp [fuzzyMatchAux, clusterScore]
    | cons x xs => simp [greedyPositions] at hps
  | cons y ts ih =>
    intro q k ps hps l score
    cases q with
    | nil =>
      simp only [greedyPositions, Option.some.injEq] at hps
      subst hps
      simp [fuzzyMatchAux, clusterScore]
    | cons x xs =>
      by_cases hxy : x = y
      · subst hxy
        simp only [greedyPositions, if_true, Option.map_eq_some'] at hps
        obtain ⟨ps', hps', rfl⟩ := hps
        simp only [fuzzyMatchAux, if_true]
        rw [ih xs (k + 1) ps' hps' k (score + min ((k : Int) - (l : Int)) 3)]
        simp [clusterScore, add_assoc]
      · simp only [greedyPositions, if_neg hxy] at hps
        simp only [fuzzyMatchAux, if_neg hxy]
        exact ih _ _ _ hps l score

/-- The scan with no recorded previous match computes `scoreOf` of the
greedy positions. -/
theorem fuzzyMatchAux_eq_scoreOf (t : GoStr) :
    ∀ (q : GoStr) (k : Nat) (ps : List Nat), greedyPositions q t k = some ps →
      ∀ (score : Int), fuzzyMatchAux q t k none score = (true, score + scoreOf ps) := by
  induction t with
  | nil =>
    intro q k ps hps score
    cases q with
    | nil =>
      simp only [greedyPositions, Option.some.injEq] at hps
      subst hps
      simp [fuzzyMatchAux, scoreOf]
    | cons x xs => simp [greedyPositions] at hps
  | cons y ts ih =>
    intro q k ps hps score
    cases q with
    | nil =>
      simp only [greedyPositions, Option.some.injEq] at hps
      subst hps
      simp [fuzzyMatchAux, scoreOf]
    | cons x xs =>
      by_cases hxy : x = y
      · subst hxy
        simp only [greedyPositions, if_true, Option.map_eq_some'] at hps
        obtain ⟨ps', hps', rfl⟩ := hps
        simp only [fuzzyMatchAux, if_true]
        rw [fuzzyMatchAux_eq_clusterScore ts xs (k + 1) ps' hps' k score]
        simp [scoreOf]
      · simp only [greedyPositions, if_neg hxy] at hps
        simp only [fuzzyMatchAux, if_neg hxy]
        exact ih _ _ _ hps score

/-- Greedy match positions are strictly increasing and bounded below by the
starting position. -/
theorem greedyPositions_chain (t : GoStr) :
    ∀ (q : GoStr) (k : Nat) (ps : List Nat), greedyPositions q t k = some ps →
      ps.Chain' (· < ·) ∧ ∀ p ∈ ps, k ≤ p := by
  induction t with
  | nil =>
    intro q k ps hps
    cases q with
    | nil =>
      simp only [greedyPositions, Option.some.injEq] at hps
      subst hps
      simp
    | cons x xs => simp [greedyPositions] at hps
  | cons y ts ih =>
    intro q k ps hps
    cases q with
    | nil =>
      simp only [greedyPositions, Option.some.injEq] at hps
      subst hps
      simp
    | cons x xs =>
      by_cases hxy : x = y
      · subst hxy
        simp only [greedyPositions, if_true, Option.map_eq_some'] at hps
        obtain ⟨ps', hps', rfl⟩ := hps
        obtain ⟨hch, hbd⟩ := ih xs (k + 1) ps' hps'
        constructor
        · rw [List.chain'_cons']
          refine ⟨?_, hch⟩
          intro b hb
          have : b ∈ ps' := by
            cases ps' with
            | nil => simp at hb
            | cons c cs =>
              simp only [List.head?_cons, Option.mem_def, Option.some.injEq] at hb
              subst hb
              exact List.mem_cons_self _ _
          exact Nat.lt_of_succ_le (hbd b this)
        · intro p hp
          rcases List.mem_cons.mp hp with rfl | hp'
          · exact le_refl _
          · exact Nat.le_of_succ_le (hbd p hp')
      · simp only [greedyPositions, if_neg hxy] at hps
        obtain ⟨hch, hbd⟩ := ih _ _ _ hps
        exact ⟨hch, fun p hp => Nat.le_of_succ_le (hbd p hp)⟩

/-- The empty query exits the loop immediately with the accumulated score. -/
theorem fuzzyMatchAux_nil (t : GoStr) (k : Nat) (last : Option Nat) (score : Int) :
    fuzzyMatchAux [] t k last score = (true, score) := by
  cases t <;> rfl

/-! ## Claim C4: the match semantics of fuzzyMatch -/

/-- C4 (confirmed).  `fuzzyMatch` returns `isMatch = true` iff the query,
scanned from its last character to its first, is a subsequence of the
candidate scanned the same way (case-insensitively); `fuzzyMatch "br"
"library"` succeeds, `fuzzyMatch "xq" "library"` fails, and a failed match
returns exactly `(false, 0)`. -/
theorem fuzzyMatch_isMatch_characterization :
    (∀ query text : GoStr,
        ((fuzzyMatch query text).1 = true ↔
          ((query.map Char.toLower).reverse).Sublist ((text.map Char.toLower).reverse)) ∧
        ((fuzzyMatch query text).1 = false → fuzzyMatch query text = (false, 0))) ∧
    (fuzzyMatch ['b', 'r'] ['l', 'i', 'b', 'r', 'a', 'r', 'y']).1 = true ∧
    fuzzyMatch ['x', 'q'] ['l', 'i', 'b', 'r', 'a', 'r', 'y'] = (false, 0) := by
  refine ⟨fun query text => ⟨?_, ?_⟩, by decide, by decide⟩
  · exact fuzzyMatchAux_isMatch _ _ _ _ _
  · exact fuzzyMatchAux_false _ _ _ _ _

/-- Witness for C4: the general theorem applied at concrete inputs, with the
inner hypotheses discharged by computation. -/
theorem fuzzyMatch_isMatch_characterization_witness :
    fuzzyMatch ['a', 'x'] ['a'] = (false, 0) ∧
    (fuzzyMatch ['o', 'o'] ['f', 'o', 'o'] ).1 = true := by
  constructor
  · exact (fuzzyMatch_isMatch_characterization.1 ['a', 'x'] ['a']).2 (by decide)
  · exact (fuzzyMatch_isMatch_characterization.1 ['o', 'o'] ['f', 'o', 'o']).1.mpr (by decide)

/-! ## Claim C10: score range of fuzzyMatch -/

/-- C10 (confirmed).  The score is non-negative, a non-empty query of length
`n` scores at most `3 * (n - 1)`, the empty query matches everything with
score 0, and a matching single-character query scores 0. -/
theorem fuzzyMatch_score_range :
    ∀ query text : GoStr,
      0 ≤ (fuzzyMatch query text).2 ∧
      (query ≠ [] → (fuzzyMatch query text).2 ≤ 3 * ((query.length : Int) - 1)) ∧
      fuzzyMatch [] text = (true, 0) ∧
      (query.length = 1 → (fuzzyMatch query text).2 = 0) := by
  intro query text
  have hnn : 0 ≤ (fuzzyMatch query text).2 := by
    apply fuzzyMatchAux_score_nonneg
    · intro l hl; cases hl
    · exact le_refl 0
  refine ⟨hnn, ?_, by simp [fuzzyMatch, fuzzyMatchAux_nil], ?_⟩
  · intro hq
    have hq' : (query.map Char.toLower).reverse ≠ [] := by
      simpa using hq
    have := fuzzyMatchAux_score_le_none ((text.map Char.toLower).reverse)
      ((query.map Char.toLower).reverse) 0 0 hq' (le_refl 0)
    simpa [fuzzyMatch] using this
  · intro h1
    have hq : query ≠ [] := by
      intro h; subst h; simp at h1
    have hq' : (query.map Char.toLower).reverse ≠ [] := by
      simpa using hq
    have hle := fuzzyMatchAux_score_le_none ((text.map Char.toLower).reverse)
      ((query.map Char.toLower).reverse) 0 0 hq' (le_refl 0)
    simp only [List.length_reverse, List.length_map, h1] at hle
    have : (fuzzyMatch query text).2 ≤ 0 := by
      simpa [fuzzyMatch] using hle
    omega

/-- Witness for C10: the bounds evaluated at a concrete query and candidate. -/
theorem fuzzyMatch_score_range_witness :
    (fuzzyMatch ['f', 'o'] ['f', 'x', 'o'] ).2 ≤ 3 * (((['f', 'o'] : GoStr).length : Int) - 1) ∧
    (fuzzyMatch ['z'] ['a', 'z'] ).2 = 0 := by
  constructor
  · exact (fuzzyMatch_score_range ['f', 'o'] ['f', 'x', 'o']).2.1 (by decide)
  · exact (fuzzyMatch_score_range ['z'] ['a', 'z']).2.2.2 (by decide)

/-! ## Claim C2: the per-match score increment -/

/-- C2 (counterexample).  In `fuzzyMatch "ab" "ab"` the two query characters
match at adjacent candidate positions — the case the claim calls "distance
0" and says contributes 0 — yet the returned score is 1, because the code's
increment `min(lastIdx - tIdx, 3)` (main.go:143) is 1 for adjacent
positions. -/
theorem fuzzyMatch_adjacent_counterexample :
    fuzzyMatch ['a', 'b'] ['a', 'b'] = (true, 1) ∧ (1 : Int) ≠ 0 := by
  constructor
  · decide
  · decide

/-- C2 (amended claim).  Each query-character match after the first adds
`min(d, 3)` to the score, where `d ≥ 1` is the difference between the
current and the previous match position in the candidate: two matches at
adjacent candidate positions have `d = 1` and contribute 1, and any `d ≥ 3`
contributes exactly 3.  Formally: the result is `(true, scoreOf ps)` where
`ps` lists the greedy match positions from the tail, `scoreOf` sums
`min(gap, 3)` over consecutive positions, and the positions are strictly
increasing (so every gap is at least 1). -/
theorem fuzzyMatch_score_clustering (query text : GoStr) (ps : List Nat)
    (h : greedyPositions ((query.map Char.toLower).reverse)
      ((text.map Char.toLower).reverse) 0 = some ps) :
    fuzzyMatch query text = (true, scoreOf ps) ∧ ps.Chain' (· < ·) := by
  refine ⟨?_, (greedyPositions_chain _ _ _ _ h).1⟩
  have := fuzzyMatchAux_eq_scoreOf _ _ _ _ h 0
  simpa [fuzzyMatch] using this

/-- Witness for C2's amended claim: on `"ab"` vs `"axb"` the greedy
positions (from the tail) are `[0, 2]`, so the score is `min(2, 3) = 2`. -/
theorem fuzzyMatch_score_clustering_witness :
    fuzzyMatch ['a', 'b'] ['a', 'x', 'b'] = (true, scoreOf [0, 2]) ∧
    ([0, 2] : List Nat).Chain' (· < ·) :=
  fuzzyMatch_score_clustering ['a', 'b'] ['a', 'x', 'b'] [0, 2] (by decide)

/-! ## The filter/rank stage (main.go:156-194) -/

/-- A scored match (main.go:156-159). -/
structure Scored where
  project : GoStr
  score : Int
deriving DecidableEq

/-- The body of the per-project loop of filterProjects (main.go:167-184):
split the path on `'/'`, match the query against the last segment, and —
because the `goto add` guard `match && 1 == 2` (main.go:175) is always
false — fall through to matching against the whole path; keep the project
when the final match succeeded.  Go's `parts[n-1]` under the `n > 0` guard
is `getLast?` (`strings.Split` never returns an empty slice). -/
def filterStep (query p : GoStr) : Option Scored :=
  let parts := p.splitOn '/'
  let leafRes :=
    match parts.getLast? with
    | some leaf => fuzzyMatch query leaf
    | none => (false, 0)
  let r := if leafRes.1 && (1 == 2) then leafRes else fuzzyMatch query p
  if r.1 then some { project := p, score := r.2 } else none

/-- filterProjects (main.go:161-194): the empty query returns everything
unchanged with no scores; otherwise score each project, drop failures, and
sort ascending by score (`slices.SortFunc` with `a.score - b.score`). -/
def filterProjects (projects : List GoStr) (query : GoStr) : List GoStr × List Scored :=
  if query = [] then (projects, [])
  else
    let ms := projects.filterMap (filterStep query)
    let sorted := ms.mergeSort (fun a b => decide (a.score ≤ b.score))
    (sorted.map (fun m => m.project), sorted)

/-- Since the `1 == 2` guard is always false, `filterStep` is decided by the
whole-path match. -/
theorem filterStep_eq (query p : GoStr) :
    filterStep query p =
      if (fuzzyMatch query p).1 = true then
        some { project := p, score := (fuzzyMatch query p).2 }
      else none := by
  simp [filterStep]

/-! ## Claim C8: the empty query -/

/-- C8 (confirmed).  With the empty query, `filterProjects` returns the
input list unchanged and an empty score list (main.go:162-164). -/
theorem filterProjects_empty_query (projects : List GoStr) :
    filterProjects projects [] = (projects, []) := by
  simp [filterProjects]

/-! ## Claim C7: exclusion of failed matches and sort order -/

/-- C7 (confirmed).  For a non-empty query, every project whose computed
match fails is excluded from the returned paths, and the returned match
list is ordered by non-decreasing score. -/
theorem filterProjects_excludes_and_sorts (projects : List GoStr) (query : GoStr)
    (hq : query ≠ []) :
    (∀ p, (fuzzyMatch query p).1 = false → p ∉ (filterProjects projects query).1) ∧
    (filterProjects projects query).2.Pairwise (fun a b => a.score ≤ b.score) := by
  constructor
  · intro p hp hmem
    simp only [filterProjects, if_neg hq] at hmem
    obtain ⟨m, hm, hmp⟩ := List.mem_map.mp hmem
    rw [List.mem_mergeSort] at hm
    obtain ⟨a, _, hstep⟩ := List.mem_filterMap.mp hm
    rw [filterStep_eq] at hstep
    by_cases hfa : (fuzzyMatch query a).1 = true
    · rw [if_pos hfa] at hstep
      have hap : a = p := by
        have := congrArg Scored.project (Option.some.inj hstep)
        simpa [hmp] using this
      rw [hap] at hfa
      rw [hfa] at hp
      exact Bool.true_eq_false.mp hp
    · rw [if_neg hfa] at hstep
      cases hstep
  · simp only [filterProjects, if_neg hq]
    have hs := @List.sorted_mergeSort Scored
      (fun a b : Scored => decide (a.score ≤ b.score))
      (fun a b c h1 h2 => by
        simp only [decide_eq_true_eq] at h1 h2 ⊢
        omega)
      (fun a b => by
        simp only [Bool.or_eq_true, decide_eq_true_eq]
        omega)
      (projects.filterMap (filterStep query))
    exact hs.imp (fun h => by simpa using h)

/-- Witness for C7: a project whose match fails is absent from the result. -/
theorem filterProjects_excludes_and_sorts_witness :
    (['x'] : GoStr) ∉ (filterProjects [['a'], ['x']] ['a']).1 :=
  (filterProjects_excludes_and_sorts [['a'], ['x']] ['a'] (by decide)).1 ['x'] (by decide)

/-! ## Claim C1: the leaf segment decides score and inclusion -/

/-- The last chunk of a split is a suffix of the joined list. -/
theorem intercalate_getLast_suffix (c : Char) :
    ∀ (parts : List GoStr) (leaf : GoStr), parts.getLast? = some leaf →
      ∃ pre : GoStr, List.intercalate [c] parts = pre ++ leaf := by
  intro parts
  induction parts with
  | nil => intro leaf h; cases h
  | cons a rest ih =>
    intro leaf h
    cases rest with
    | nil =>
      simp only [List.getLast?_singleton, Option.some.injEq] at h
      subst h
      exact ⟨[], by simp [List.intercalate]⟩
    | cons b rest' =>
      rw [List.getLast?_cons_cons] at h
      obtain ⟨pre, hpre⟩ := ih leaf h
      refine ⟨a ++ [c] ++ pre, ?_⟩
      have : List.intercalate [c] (a :: b :: rest') =
          a ++ [c] ++ List.intercalate [c] (b :: rest') := by
        simp [List.intercalate]
      rw [this, hpre]
      simp [List.append_assoc]

/-- If the query matches the final path segment, the whole-path match (what
the fallen-through code at main.go:179 actually computes) returns the very
same answer: the greedy tail scan of the path begins inside the leaf
segment, finishes there, and never looks at the earlier components. -/
theorem fuzzyMatch_leaf_extends (query p leaf : GoStr)
    (hleaf : (p.splitOn '/').getLast? = some leaf)
    (hm : (fuzzyMatch query leaf).1 = true) :
    fuzzyMatch query p = fuzzyMatch query leaf := by
  obtain ⟨pre, hpre⟩ := intercalate_getLast_suffix '/' (p.splitOn '/') leaf hleaf
  have hp : p = pre ++ leaf := by
    rw [← List.intercalate_splitOn p '/']
    exact hpre
  rw [hp]
  show fuzzyMatchAux _ (((pre ++ leaf).map Char.toLower).reverse) 0 none 0 = _
  rw [List.map_append, List.reverse_append]
  exact fuzzyMatchAux_append _ _ _ _ _ _ hm

/-- C1 (confirmed).  For a non-empty query and a candidate whose final path
segment matches, `filterProjects` records the candidate with the
leaf-segment score, and the candidate is included in the returned paths.
The code's explicit leaf-segment branch is dead (`match && 1 == 2`,
main.go:175), but the whole-path match it falls through to returns exactly
the leaf-segment result whenever the leaf matches
(`fuzzyMatch_leaf_extends`), so the leaf-segment result does decide the
candidate's score and inclusion. -/
theorem filterProjects_leaf_match (projects : List GoStr) (query p leaf : GoStr)
    (hq : query ≠ []) (hp : p ∈ projects)
    (hleaf : (p.splitOn '/').getLast? = some leaf)
    (hm : (fuzzyMatch query leaf).1 = true) :
    ({ project := p, score := (fuzzyMatch query leaf).2 } : Scored)
        ∈ (filterProjects projects query).2 ∧
    p ∈ (filterProjects projects query).1 := by
  have heq := fuzzyMatch_leaf_extends query p leaf hleaf hm
  have hstep : filterStep query p =
      some { project := p, score := (fuzzyMatch query leaf).2 } := by
    rw [filterStep_eq, heq, if_pos hm]
  have hmem : ({ project := p, score := (fuzzyMatch query leaf).2 } : Scored)
      ∈ (projects.filterMap (filterStep query)).mergeSort
        (fun a b => decide (a.score ≤ b.score)) := by
    rw [List.mem_mergeSort]
    exact List.mem_filterMap.mpr ⟨p, hp, hstep⟩
  constructor
  · simpa only [filterProjects, if_neg hq] using hmem
  · simp only [filterProjects, if_neg hq]
    exact List.mem_map.mpr ⟨_, hmem, rfl⟩

/-- Witness for C1: a concrete path `"ab/cd"` whose leaf `"cd"` matches the
query `"d"` with score 0. -/
theorem filterProjects_leaf_match_witness :
    ({ project := ['a', 'b', '/', 'c', 'd'], score := 0 } : Scored)
        ∈ (filterProjects [['a', 'b', '/', 'c', 'd']] ['d']).2 ∧
    (['a', 'b', '/', 'c', 'd'] : GoStr) ∈ (filterProjects [['a', 'b', '/', 'c', 'd']] ['d']).1 :=
  filterProjects_leaf_match [['a', 'b', '/', 'c', 'd']] ['d'] ['a', 'b', '/', 'c', 'd']
    ['c', 'd'] (by decide) (by decide) (by decide) (by decide)

/-! ## The traversal engine (main.go:39-96) -/

/-- Control signals a visitor can return (main.go:39-46); the source's
names, including the `Conitinue` typo, are kept.  `ContinueAnyway` is the
spec's ContinueForced, `Conitinue` ContinueDefault, `StopAnyway`
StopForced, `Stop` StopDefault. -/
inductive stop where
  | ContinueAnyway
  | Conitinue
  | StopAnyway
  | Stop
deriving DecidableEq

/-- A directory entry of the modelled filesystem: what `os.ReadDir` yields,
with subdirectory contents attached so the walk is a pure function. -/
inductive Entry where
  | file (name : GoStr)
  | dir (name : GoStr) (entries : List Entry)

/-- Name of an entry (`entry.Name()`). -/
def Entry.name : Entry → GoStr
  | .file n => n
  | .dir n _ => n

/-- Directory flag of an entry (`entry.IsDir()`). -/
def Entry.isDir : Entry → Bool
  | .file _ => false
  | .dir _ _ => true

/-- The four aggregation booleans of walkFast's entry loop
(main.go:62-65). -/
structure Flags where
  continueAnyway : Bool
  continue_ : Bool
  stopAnyway : Bool
  stop_ : Bool
deriving DecidableEq

/-- One iteration of the `switch` in walkFast's entry loop
(main.go:68-77). -/
def updateFlags (f : Flags) : stop → Flags
  | .Conitinue => { f with continue_ := true }
  | .ContinueAnyway => { f with continueAnyway := true }
  | .StopAnyway => { f with stopAnyway := true }
  | .Stop => { f with stop_ := true }

/-- The aggregation of all entry signals of one directory
(main.go:62-78). -/
def collectFlags (sigs : List stop) : Flags :=
  sigs.foldl updateFlags ⟨false, false, false, false⟩

/-- The descend decision of walkFast (main.go:79-84). -/
def goDeep (f : Flags) : Bool :=
  let g := f.continue_ && !f.stop_
  if f.stopAnyway then false else if f.continueAnyway then true else g

/-- `filepath.Join` of a directory path and a plain entry name. -/
def pathJoin (dir name : GoStr) : GoStr := dir ++ '/' :: name

/-- The entry loop of one popped directory (main.go:66-78): `visit` is
called once per entry, threading the visitor's state; the produced signals
are returned in order. -/
def visitEntries {σ : Type} (visit : σ → GoStr → GoStr → Bool → σ × stop)
    (st : σ) (path : GoStr) : List Entry → σ × List stop
  | [] => (st, [])
  | e :: rest =>
    let r := visit st path e.name e.isDir
    let rr := visitEntries visit r.1 path rest
    (rr.1, r.2 :: rr.2)

mutual
/-- Processing of one directory popped from walkFast's stack
(main.go:52-93): read its entries, visit each, aggregate the signals,
decide, and if the decision is to descend, walk each subdirectory in
enumeration order (the loop pushes them in reverse so they pop in order,
main.go:86-91).  Besides the final visitor state, the list of directories
the loop popped (read) is returned — the "visited set" of the
specification — with the current directory first. -/
def walkDir {σ : Type} (visit : σ → GoStr → GoStr → Bool → σ × stop)
    (st : σ) (path : GoStr) (entries : List Entry) : σ × List GoStr :=
  let v := visitEntries visit st path entries
  if goDeep (collectFlags v.2) then
    let w := walkSubdirs visit v.1 path entries
    (w.1, path :: w.2)
  else (v.1, [path])
termination_by (2 * sizeOf entries + 1, 0)

/-- The deferred walks of the pushed subdirectories of one directory:
non-directory entries contribute nothing (main.go:88). -/
def walkSubdirs {σ : Type} (visit : σ → GoStr → GoStr → Bool → σ × stop)
    (st : σ) (path : GoStr) : List Entry → σ × List GoStr
  | [] => (st, [])
  | .file _ :: rest => walkSubdirs visit st path rest
  | .dir n children :: rest =>
    let w := walkDir visit st (pathJoin path n) children
    let ws := walkSubdirs visit w.1 path rest
    (ws.1, w.2 ++ ws.2)
termination_by es => (2 * sizeOf es, 1)
end

/-- walkFast (main.go:48-96) on a modelled root directory. -/
def walkFast {σ : Type} (visit : σ → GoStr → GoStr → Bool → σ × stop)
    (st : σ) (root : GoStr) (entries : List Entry) : σ × List GoStr :=
  walkDir visit st root entries

/-! ## The project detector (main.go:98-129) -/

/-- projectMarkers (main.go:98-100). -/
def projectMarkers : List GoStr :=
  [['p', 'o', 'm', '.', 'x', 'm', 'l'],
   ['g', 'o', '.', 'm', 'o', 'd'],
   ['p', 'a', 'c', 'k', 'a', 'g', 'e', '.', 'j', 's', 'o', 'n'],
   ['C', 'a', 'r', 'g', 'o', '.', 't', 'o', 'm', 'l'],
   ['M', 'a', 'k', 'e', 'f', 'i', 'l', 'e'],
   ['.', 'g', 'i', 't'],
   ['m', 'a', 'i', 'n', '.', 'j', 's'],
   ['i', 'n', 'd', 'e', 'x', '.', 'j', 's']]

/-- skipDirs (main.go:101-103). -/
def skipDirs : List GoStr :=
  [['n', 'o', 'd', 'e', '_', 'm', 'o', 'd', 'u', 'l', 'e', 's']]

/-- The multi-root override marker name `go.work` (main.go:122). -/
def goWork : GoStr := ['g', 'o', '.', 'w', 'o', 'r', 'k']

/-- The visitor state of findProjects: the accumulated project list and the
dedup set (main.go:106-107; the `seen` map is modelled as a list). -/
structure FPState where
  projects : List GoStr
  seen : List GoStr

/-- The findProjects visitor closure (main.go:110-126). -/
def fpVisit (st : FPState) (path name : GoStr) (_isDir : Bool) : FPState × stop :=
  if name ∈ skipDirs then (st, .StopAnyway)
  else if name ∈ projectMarkers then
    (if path ∈ st.seen then st
     else { projects := st.projects ++ [path], seen := path :: st.seen }, .Stop)
  else if name = goWork then (st, .ContinueAnyway)
  else (st, .Conitinue)

/-- findProjects (main.go:105-129) over a modelled filesystem: each base
directory is given as its path together with its entry tree. -/
def findProjects (baseDirs : List (GoStr × List Entry)) : List GoStr :=
  (baseDirs.foldl (fun st b => (walkFast fpVisit st b.1 b.2).1)
    { projects := [], seen := [] }).projects

/-! ## Claim C3: the aggregated descend decision -/

/-- Folding the flag updates records exactly whether each signal occurred. -/
theorem collectFlags_foldl (sigs : List stop) :
    ∀ f : Flags, sigs.foldl updateFlags f =
      { continueAnyway := f.continueAnyway || sigs.contains .ContinueAnyway,
        continue_ := f.continue_ || sigs.contains .Conitinue,
        stopAnyway := f.stopAnyway || sigs.contains .StopAnyway,
        stop_ := f.stop_ || sigs.contains .Stop } := by
  induction sigs with
  | nil => intro f; simp
  | cons s rest ih =>
    intro f
    cases s <;>
      simp [updateFlags, ih, List.contains_cons, Bool.or_assoc, Bool.or_comm, Bool.or_left_comm]

/-- The flags collected for a directory are the four "saw this signal"
booleans of the specification. -/
theorem collectFlags_eq (sigs : List stop) :
    collectFlags sigs =
      { continueAnyway := sigs.contains .ContinueAnyway,
        continue_ := sigs.contains .Conitinue,
        stopAnyway := sigs.contains .StopAnyway,
        stop_ := sigs.contains .Stop } := by
  rw [collectFlags, collectFlags_foldl]
  rfl

/-- C3 (confirmed).  For every directory walkFast processes — its entries
producing the signal list `(visitEntries visit st path es).2`, from which
`walkDir` computes its descend decision as `goDeep (collectFlags sigs)` —
the engine descends iff no entry produced StopForced, and either some entry
produced ContinueForced, or some entry produced ContinueDefault and none
produced StopDefault. -/
theorem walkFast_descend_decision {σ : Type}
    (visit : σ → GoStr → GoStr → Bool → σ × stop) (st : σ) (path : GoStr)
    (es : List Entry) :
    goDeep (collectFlags (visitEntries visit st path es).2) = true ↔
      (stop.StopAnyway ∉ (visitEntries visit st path es).2 ∧
        (stop.ContinueAnyway ∈ (visitEntries visit st path es).2 ∨
          (stop.Conitinue ∈ (visitEntries visit st path es).2 ∧
            stop.Stop ∉ (visitEntries visit st path es).2))) := by
  rw [collectFlags_eq]
  by_cases h3 : stop.StopAnyway ∈ (visitEntries visit st path es).2 <;>
  by_cases h1 : stop.ContinueAnyway ∈ (visitEntries visit st path es).2 <;>
  by_cases h2 : stop.Conitinue ∈ (visitEntries visit st path es).2 <;>
  by_cases h4 : stop.Stop ∈ (visitEntries visit st path es).2 <;>
  simp [goDeep, h1, h2, h3, h4, List.elem_iff]

/-! ## Signals produced by the findProjects visitor -/

/-- A skip-named entry makes the visitor answer StopForced (main.go:111-113),
whatever the state. -/
theorem visitEntries_skip (path : GoStr) :
    ∀ (es : List Entry) (st : FPState), (∃ e ∈ es, e.name ∈ skipDirs) →
      stop.StopAnyway ∈ (visitEntries fpVisit st path es).2 := by
  intro es
  induction es with
  | nil =>
    rintro st ⟨e, he, _⟩
    cases he
  | cons e rest ih =>
    rintro st ⟨f, hf, hskip⟩
    simp only [visitEntries]
    rcases List.mem_cons.mp hf with rfl | hf'
    · have : (fpVisit st path f.name f.isDir).2 = stop.StopAnyway := by
        simp [fpVisit, hskip]
      rw [this]
      exact List.mem_cons_self _ _
    · exact List.mem_cons_of_mem _ (ih _ ⟨f, hf', hskip⟩)

/-- The visitor answers StopForced only for skip-named entries. -/
theorem fpVisit_stopAnyway_iff (st : FPState) (path name : GoStr) (d : Bool) :
    (fpVisit st path name d).2 = stop.StopAnyway ↔ name ∈ skipDirs := by
  by_cases h1 : name ∈ skipDirs
  · simp [fpVisit, h1]
  · simp only [fpVisit, if_neg h1]
    by_cases h2 : name ∈ projectMarkers
    · simp [h2, h1]
    · simp only [if_neg h2]
      by_cases h3 : name = goWork
      · simp only [h3, if_true]
        constructor
        · intro h
          cases h
        · intro h
          exact absurd h (by decide)
      · simp [h3, h1]

/-- Without skip-named entries, no StopForced signal is produced. -/
theorem visitEntries_no_stopAnyway (path : GoStr) :
    ∀ (es : List Entry) (st : FPState), (∀ e ∈ es, e.name ∉ skipDirs) →
      stop.StopAnyway ∉ (visitEntries fpVisit st path es).2 := by
  intro es
  induction es with
  | nil =>
    intro st _ h
    cases h
  | cons e rest ih =>
    intro st hns hmem
    simp only [visitEntries] at hmem
    rcases List.mem_cons.mp hmem with heq | hmem'
    · exact hns e (List.mem_cons_self _ _)
        ((fpVisit_stopAnyway_iff st path e.name e.isDir).mp heq.symm)
    · exact ih _ (fun f hf => hns f (List.mem_cons_of_mem _ hf)) hmem'

/-- A `go.work` entry makes the visitor answer ContinueForced
(main.go:122-124): its name is neither a skip name nor a marker. -/
theorem visitEntries_goWork (path : GoStr) :
    ∀ (es : List Entry) (st : FPState), (∃ e ∈ es, e.name = goWork) →
      stop.ContinueAnyway ∈ (visitEntries fpVisit st path es).2 := by
  intro es
  induction es with
  | nil =>
    rintro st ⟨e, he, _⟩
    cases he
  | cons e rest ih =>
    rintro st ⟨f, hf, hwork⟩
    simp only [visitEntries]
    rcases List.mem_cons.mp hf with rfl | hf'
    · have : (fpVisit st path f.name f.isDir).2 = stop.ContinueAnyway := by
        rw [hwork]
        simp [fpVisit, goWork, skipDirs, projectMarkers]
      rw [this]
      exact List.mem_cons_self _ _
    · exact List.mem_cons_of_mem _ (ih _ ⟨f, hf', hwork⟩)

/-! ## State evolution of the findProjects visitor -/

/-- A visitor step never removes a recorded project (main.go:115-118 only
appends). -/
theorem fpVisit_projects_mono (st : FPState) (path name : GoStr) (d : Bool)
    (x : GoStr) (hx : x ∈ st.projects) : x ∈ (fpVisit st path name d).1.projects := by
  by_cases h1 : name ∈ skipDirs
  · simpa [fpVisit, h1] using hx
  · by_cases h2 : name ∈ projectMarkers
    · by_cases h3 : path ∈ st.seen
      · simpa [fpVisit, h1, h2, h3] using hx
      · simp only [fpVisit, if_neg h1, if_pos h2, if_neg h3]
        exact List.mem_append_left _ hx
    · by_cases h3 : name = goWork <;> simpa [fpVisit, h1, h2, h3] using hx

/-- A visitor step preserves "everything in `seen` has been recorded". -/
theorem fpVisit_inv (st : FPState) (path name : GoStr) (d : Bool)
    (hinv : ∀ y ∈ st.seen, y ∈ st.projects) :
    ∀ y ∈ (fpVisit st path name d).1.seen, y ∈ (fpVisit st path name d).1.projects := by
  by_cases h1 : name ∈ skipDirs
  · simpa [fpVisit, h1] using hinv
  · by_cases h2 : name ∈ projectMarkers
    · by_cases h3 : path ∈ st.seen
      · simpa [fpVisit, h1, h2, h3] using hinv
      · simp only [fpVisit, if_neg h1, if_pos h2, if_neg h3]
        intro y hy
        rcases List.mem_cons.mp hy with rfl | hy'
        · exact List.mem_append_right _ (List.mem_cons_self _ _)
        · exact List.mem_append_left _ (hinv y hy')
    · by_cases h3 : name = goWork <;> simpa [fpVisit, h1, h2, h3] using hinv

/-- Visiting a directory's entries never removes a recorded project. -/
theorem visitEntries_projects_mono (path : GoStr) :
    ∀ (es : List Entry) (st : FPState) (x : GoStr), x ∈ st.projects →
      x ∈ (visitEntries fpVisit st path es).1.projects := by
  intro es
  induction es with
  | nil => intro st x hx; exact hx
  | cons e rest ih =>
    intro st x hx
    simp only [visitEntries]
    exact ih _ x (fpVisit_projects_mono st path e.name e.isDir x hx)

/-- Visiting a directory's entries preserves the dedup invariant. -/
theorem visitEntries_inv (path : GoStr) :
    ∀ (es : List Entry) (st : FPState), (∀ y ∈ st.seen, y ∈ st.projects) →
      ∀ y ∈ (visitEntries fpVisit st path es).1.seen,
        y ∈ (visitEntries fpVisit st path es).1.projects := by
  intro es
  induction es with
  | nil => intro st hinv; exact hinv
  | cons e rest ih =>
    intro st hinv
    simp only [visitEntries]
    exact ih _ (fpVisit_inv st path e.name e.isDir hinv)

/-- If some entry of a directory is marker-named (and none is skip-named),
visiting the entries records the directory (main.go:114-120). -/
theorem visitEntries_marker (path : GoStr) :
    ∀ (es : List Entry) (st : FPState), (∀ y ∈ st.seen, y ∈ st.projects) →
      (∀ e ∈ es, e.name ∉ skipDirs) → (∃ e ∈ es, e.name ∈ projectMarkers) →
      path ∈ (visitEntries fpVisit st path es).1.projects := by
  intro es
  induction es with
  | nil =>
    rintro st _ _ ⟨e, he, _⟩
    cases he
  | cons e rest ih =>
    rintro st hinv hns ⟨f, hf, hmark⟩
    simp only [visitEntries]
    rcases List.mem_cons.mp hf with rfl | hf'
    · have hns1 : f.name ∉ skipDirs := hns f (List.mem_cons_self _ _)
      have hrec : path ∈ (fpVisit st path f.name f.isDir).1.projects := by
        by_cases h3 : path ∈ st.seen
        · simpa [fpVisit, hns1, hmark, h3] using hinv path h3
        · simp only [fpVisit, if_neg hns1, if_pos hmark, if_neg h3]
          exact List.mem_append_right _ (List.mem_cons_self _ _)
      exact visitEntries_projects_mono path rest _ path hrec
    · exact ih _ (fpVisit_inv st path e.name e.isDir hinv)
        (fun g hg => hns g (List.mem_cons_of_mem _ hg)) ⟨f, hf', hmark⟩

/-! ## The walk never removes recorded projects -/

/-- Walking a directory never removes a recorded project. -/
theorem walkDir_projects_mono (st : FPState) (path : GoStr) (es : List Entry) :
    ∀ x ∈ st.projects, x ∈ (walkDir fpVisit st path es).1.projects := by
  refine walkDir.induct fpVisit
    (fun st path es => ∀ x ∈ st.projects, x ∈ (walkDir fpVisit st path es).1.projects)
    (fun st path es => ∀ x ∈ st.projects, x ∈ (walkSubdirs fpVisit st path es).1.projects)
    ?_ ?_ ?_ ?_ ?_ st path es
  · intro st path es v hgo ih x hx
    rw [walkDir.eq_def]
    simp only [hgo, if_true]
    exact ih x (visitEntries_projects_mono path es st x hx)
  · intro st path es v hgo x hx
    rw [walkDir.eq_def]
    simp only [hgo, if_false]
    exact visitEntries_projects_mono path es st x hx
  · intro st path x hx
    rw [walkSubdirs.eq_def]
    exact hx
  · intro st path name rest ih x hx
    rw [walkSubdirs.eq_def]
    exact ih x hx
  · intro st path n children rest w ih1 ih2 x hx
    rw [walkSubdirs.eq_def]
    exact ih2 x (ih1 x hx)

/-- Walking a list of subdirectories never removes a recorded project. -/
theorem walkSubdirs_projects_mono (st : FPState) (path : GoStr) (es : List Entry) :
    ∀ x ∈ st.projects, x ∈ (walkSubdirs fpVisit st path es).1.projects := by
  refine walkSubdirs.induct fpVisit
    (fun st path es => ∀ x ∈ st.projects, x ∈ (walkDir fpVisit st path es).1.projects)
    (fun st path es => ∀ x ∈ st.projects, x ∈ (walkSubdirs fpVisit st path es).1.projects)
    ?_ ?_ ?_ ?_ ?_ st path es
  · intro st path es v hgo ih x hx
    rw [walkDir.eq_def]
    simp only [hgo, if_true]
    exact ih x (visitEntries_projects_mono path es st x hx)
  · intro st path es v hgo x hx
    rw [walkDir.eq_def]
    simp only [hgo, if_false]
    exact visitEntries_projects_mono path es st x hx
  · intro st path x hx
    rw [walkSubdirs.eq_def]
    exact hx
  · intro st path name rest ih x hx
    rw [walkSubdirs.eq_def]
    exact ih x hx
  · intro st path n children rest w ih1 ih2 x hx
    rw [walkSubdirs.eq_def]
    exact ih2 x (ih1 x hx)

/-! ## Visited directories -/

/-- A walked directory heads its own visited list: the walkFast loop pops
and reads it before anything below it. -/
theorem walkDir_visited_head {σ : Type} (visit : σ → GoStr → GoStr → Bool → σ × stop)
    (st : σ) (path : GoStr) (es : List Entry) :
    ∃ t, (walkDir visit st path es).2 = path :: t := by
  rw [walkDir.eq_def]
  by_cases h : goDeep (collectFlags (visitEntries visit st path es).2) = true
  · exact ⟨(walkSubdirs visit (visitEntries visit st path es).1 path es).2, by simp [h]⟩
  · exact ⟨[], by simp [h]⟩

/-- Every direct subdirectory of the current directory is visited by the
subdirectory sweep. -/
theorem walkSubdirs_visits {σ : Type} (visit : σ → GoStr → GoStr → Bool → σ × stop)
    (path : GoStr) :
    ∀ (es : List Entry) (st : σ) (n : GoStr) (ch : List Entry),
      Entry.dir n ch ∈ es → pathJoin path n ∈ (walkSubdirs visit st path es).2 := by
  intro es
  induction es with
  | nil =>
    intro st n ch h
    cases h
  | cons e rest ih =>
    intro st n ch h
    cases e with
    | file m =>
      rcases List.mem_cons.mp h with heq | h'
      · cases heq
      · rw [walkSubdirs.eq_def]
        exact ih st n ch h'
    | dir m mch =>
      rcases List.mem_cons.mp h with heq | h'
      · injection heq with h1 h2
        subst h1
        subst h2
        rw [walkSubdirs.eq_def]
        obtain ⟨t, ht⟩ := walkDir_visited_head visit st (pathJoin path n) ch
        simp only [ht]
        exact List.mem_append_left _ (List.mem_cons_self _ _)
      · rw [walkSubdirs.eq_def]
        exact List.mem_append_right _ (ih _ n ch h')

/-! ## Claim C5: skip names prune the whole directory -/

/-- C5 (confirmed).  If a directory processed by the findProjects walk
contains an entry whose name is in the skip set, the walk of that directory
visits no directory besides itself — in particular none of its
subdirectories — regardless of every other entry (main.go:111-113 answers
StopForced, which wins the aggregation of main.go:79-84). -/
theorem walkFast_skip_prunes (st : FPState) (path : GoStr) (es : List Entry)
    (h : ∃ e ∈ es, e.name ∈ skipDirs) :
    (walkDir fpVisit st path es).2 = [path] := by
  have hsig := visitEntries_skip path es st h
  have hflag : goDeep (collectFlags (visitEntries fpVisit st path es).2) = false := by
    rw [collectFlags_eq]
    simp only [goDeep]
    simp
    intro hcon
    exact absurd hsig hcon
  rw [walkDir.eq_def]
  simp [hflag]

/-- Witness for C5: a directory holding a `node_modules` entry and an
ordinary subdirectory; only the directory itself is visited. -/
theorem walkFast_skip_prunes_witness :
    (walkDir fpVisit { projects := [], seen := [] } ['r']
      [Entry.dir ['n', 'o', 'd', 'e', '_', 'm', 'o', 'd', 'u', 'l', 'e', 's'] [],
       Entry.dir ['s', 'r', 'c'] [],
       Entry.file ['g', 'o', '.', 'w', 'o', 'r', 'k']]).2 = [['r']] :=
  walkFast_skip_prunes { projects := [], seen := [] } ['r'] _
    ⟨Entry.dir ['n', 'o', 'd', 'e', '_', 'm', 'o', 'd', 'u', 'l', 'e', 's'] [],
      List.mem_cons_self _ _, by decide⟩

/-! ## Claim C6: marker plus override records and still descends -/

/-- C6 (confirmed).  A directory containing both a marker-named entry and a
`go.work` entry, and no skip-named entry, is recorded as a project
(main.go:114-120) and the walk still descends into each of its
subdirectories, because the ContinueForced answer for `go.work`
(main.go:122-124) overrides the marker's default Stop in the aggregation
(main.go:79-84).  The dedup hypothesis says every path in `seen` is already
recorded, as holds throughout findProjects. -/
theorem walkFast_marker_override (st : FPState) (path : GoStr) (es : List Entry)
    (hinv : ∀ y ∈ st.seen, y ∈ st.projects)
    (hmark : ∃ e ∈ es, e.name ∈ projectMarkers)
    (hwork : ∃ e ∈ es, e.name = goWork)
    (hskip : ∀ e ∈ es, e.name ∉ skipDirs) :
    path ∈ (walkDir fpVisit st path es).1.projects ∧
    ∀ n ch, Entry.dir n ch ∈ es → pathJoin path n ∈ (walkDir fpVisit st path es).2 := by
  have hnsa := visitEntries_no_stopAnyway path es st hskip
  have hcam := visitEntries_goWork path es st hwork
  have hgo : goDeep (collectFlags (visitEntries fpVisit st path es).2) = true := by
    rw [collectFlags_eq]
    simp only [goDeep]
    simp
    exact ⟨hnsa, Or.inl hcam⟩
  constructor
  · rw [walkDir.eq_def]
    simp only [hgo, if_true]
    exact walkSubdirs_projects_mono _ path es path
      (visitEntries_marker path es st hinv hskip hmark)
  · intro n ch hmem
    rw [walkDir.eq_def]
    simp only [hgo, if_true]
    exact List.mem_cons_of_mem _ (walkSubdirs_visits fpVisit path es _ n ch hmem)

/-- Witness for C6: a directory with a `go.mod` marker, a `go.work`
override, and a subdirectory `src`; the directory is recorded and `src` is
visited. -/
theorem walkFast_marker_override_witness :
    (['r'] : GoStr) ∈ (walkDir fpVisit { projects := [], seen := [] } ['r']
      [Entry.file ['g', 'o', '.', 'm', 'o', 'd'],
       Entry.file ['g', 'o', '.', 'w', 'o', 'r', 'k'],
       Entry.dir ['s', 'r', 'c'] []]).1.projects ∧
    pathJoin ['r'] ['s', 'r', 'c'] ∈ (walkDir fpVisit { projects := [], seen := [] } ['r']
      [Entry.file ['g', 'o', '.', 'm', 'o', 'd'],
       Entry.file ['g', 'o', '.', 'w', 'o', 'r', 'k'],
       Entry.dir ['s', 'r', 'c'] []]).2 := by
  have h := walkFast_marker_override { projects := [], seen := [] } ['r']
    [Entry.file ['g', 'o', '.', 'm', 'o', 'd'],
     Entry.file ['g', 'o', '.', 'w', 'o', 'r', 'k'],
     Entry.dir ['s', 'r', 'c'] []]
    (by intro y hy; cases hy)
    ⟨Entry.file ['g', 'o', '.', 'm', 'o', 'd'], List.mem_cons_self _ _, by decide⟩
    ⟨Entry.file ['g', 'o', '.', 'w', 'o', 'r', 'k'],
      List.mem_cons_of_mem _ (List.mem_cons_self _ _), by decide⟩
    (by decide)
  exact ⟨h.1, h.2 ['s', 'r', 'c'] []
    (List.mem_cons_of_mem _ (List.mem_cons_of_mem _ (List.mem_cons_self _ _)))⟩

/-! ## The cache codec (main.go:200-227)

`saveCache` marshals `Cache{Projects: projects}` with
`json.MarshalIndent(c, "", "  ")` and writes the bytes; `loadCache` reads
them back and unmarshals.  File I/O is abstracted to the file's content;
the `encoding/json` behaviour is modelled explicitly for this document
shape: the exact indented output the marshaller produces, and a
whitespace-tolerant parser of one-field objects whose string scanner
handles the full JSON escape repertoire the marshaller can emit. -/

/-- The JSON string-quote character. -/
def quoteChar : Char := Char.ofNat 34

/-- The backslash character. -/
def backslashChar : Char := Char.ofNat 92

/-- The newline character. -/
def nlChar : Char := Char.ofNat 10

/-- The carriage-return character. -/
def crChar : Char := Char.ofNat 13

/-- The horizontal-tab character. -/
def tabChar : Char := Char.ofNat 9

/-- The opening-brace character. -/
def lbraceChar : Char := Char.ofNat 123

/-- The closing-brace character. -/
def rbraceChar : Char := Char.ofNat 125

/-- Lowercase hex digit, as Go's encoder emits (`"0123456789abcdef"`). -/
def hexDigit (n : Nat) : Char :=
  if n < 10 then Char.ofNat (48 + n) else Char.ofNat (87 + n)

/-- Does Go's encoder (`SetEscapeHTML` default true) emit this character as
a `\u` escape: control characters without a short form, the HTML-sensitive
`<`, `>`, `&`, and the line separators U+2028/U+2029. -/
def needsU (c : Char) : Bool :=
  decide (c.toNat < 32) || decide (c = '<') || decide (c = '>') || decide (c = '&') ||
    decide (c.toNat = 8232) || decide (c.toNat = 8233)

/-- How Go's JSON encoder writes one character of a string value. -/
def encodeChar (c : Char) : GoStr :=
  if c = quoteChar then [backslashChar, quoteChar]
  else if c = backslashChar then [backslashChar, backslashChar]
  else if c = nlChar then [backslashChar, 'n']
  else if c = crChar then [backslashChar, 'r']
  else if c = tabChar then [backslashChar, 't']
  else if needsU c then
    [backslashChar, 'u', hexDigit (c.toNat / 4096 % 16), hexDigit (c.toNat / 256 % 16),
     hexDigit (c.toNat / 16 % 16), hexDigit (c.toNat % 16)]
  else [c]

/-- A JSON string literal for `s`. -/
def encodeString (s : GoStr) : GoStr :=
  quoteChar :: (s.map encodeChar).flatten ++ [quoteChar]

/-- The array items, one per line, indented by four spaces and separated by
commas, as `MarshalIndent` with prefix `""` and indent `"  "` nests them. -/
def encodeItems : List GoStr → GoStr
  | [] => []
  | [p] => ' ' :: ' ' :: ' ' :: ' ' :: encodeString p
  | p :: q :: ps =>
    ' ' :: ' ' :: ' ' :: ' ' :: (encodeString p ++ ',' :: nlChar :: encodeItems (q :: ps))

/-- The `projects` array: `[]` when empty, otherwise items on their own
lines with the closing bracket indented by two spaces. -/
def encodeArr (ps : List GoStr) : GoStr :=
  match ps with
  | [] => ['[', ']']
  | _ :: _ => '[' :: nlChar :: (encodeItems ps ++ nlChar :: ' ' :: ' ' :: [']'])

/-- The JSON field name of `Projects` (its `json:"projects"` tag,
main.go:204). -/
def projectsKey : GoStr := ['p', 'r', 'o', 'j', 'e', 'c', 't', 's']

/-- saveCache (main.go:220-227), abstracted to the content written: the
`MarshalIndent` output for `Cache{Projects: projects}`. -/
def saveCache (projects : List GoStr) : GoStr :=
  lbraceChar :: nlChar :: ' ' :: ' ' ::
    (encodeString projectsKey ++ ':' :: ' ' :: (encodeArr projects ++ nlChar :: [rbraceChar]))

/-- JSON whitespace. -/
def isWs (c : Char) : Bool :=
  decide (c = ' ') || decide (c = nlChar) || decide (c = tabChar) || decide (c = crChar)

/-- Drop leading JSON whitespace. -/
def skipWs : GoStr → GoStr
  | [] => []
  | c :: rest => if isWs c then skipWs rest else c :: rest

/-- Numeric value of a hex digit, upper or lower case. -/
def hexVal (c : Char) : Option Nat :=
  if 48 ≤ c.toNat ∧ c.toNat ≤ 57 then some (c.toNat - 48)
  else if 97 ≤ c.toNat ∧ c.toNat ≤ 102 then some (c.toNat - 87)
  else if 65 ≤ c.toNat ∧ c.toNat ≤ 70 then some (c.toNat - 55)
  else none

/-- Single-character JSON escapes and their values. -/
def escChar (e : Char) : Option Char :=
  if e = quoteChar then some quoteChar
  else if e = backslashChar then some backslashChar
  else if e = '/' then some '/'
  else if e = 'b' then some (Char.ofNat 8)
  else if e = 'f' then some (Char.ofNat 12)
  else if e = 'n' then some nlChar
  else if e = 'r' then some crChar
  else if e = 't' then some tabChar
  else none

/-- The string scanner of the unmarshaller, positioned after the opening
quote: returns the decoded string and the input after the closing quote.
(Go combines `\u` surrogate pairs and rejects bare control bytes; neither
case arises for marshaller output, and the model simply decodes each `\u`
escape to its scalar value and accepts raw characters.) -/
def parseStrBody : GoStr → Option (GoStr × GoStr)
  | [] => none
  | c :: rest =>
    if c = quoteChar then some ([], rest)
    else if c = backslashChar then
      match rest with
      | [] => none
      | e :: rest2 =>
        if e = 'u' then
          match rest2 with
          | h1 :: h2 :: h3 :: h4 :: rest3 =>
            match hexVal h1, hexVal h2, hexVal h3, hexVal h4 with
            | some a, some b, some c2, some d =>
              (parseStrBody rest3).map
                (fun pr => (Char.ofNat (((a * 16 + b) * 16 + c2) * 16 + d) :: pr.1, pr.2))
            | _, _, _, _ => none
          | _ => none
        else
          match escChar e with
          | some d => (parseStrBody rest2).map (fun pr => (d :: pr.1, pr.2))
          | none => none
    else (parseStrBody rest).map (fun pr => (c :: pr.1, pr.2))

/-- A JSON string including its opening quote. -/
def parseStr (s : GoStr) : Option (GoStr × GoStr) :=
  match s with
  | c :: rest => if c = quoteChar then parseStrBody rest else none
  | [] => none

/-- Skipping whitespace never lengthens the input. -/
theorem skipWs_length_le (s : GoStr) : (skipWs s).length ≤ s.length := by
  induction s with
  | nil => exact le_refl 0
  | cons c rest ih =>
    rw [skipWs]
    by_cases h : isWs c = true
    · rw [if_pos h]
      exact Nat.le_succ_of_le ih
    · rw [if_neg h]

/-- The string scanner consumes at least the closing quote. -/
theorem parseStrBody_length (s : GoStr) :
    ∀ pr : GoStr × GoStr, parseStrBody s = some pr → pr.2.length < s.length := by
  induction s using parseStrBody.induct with
  | case1 =>
    intro pr h
    cases h
  | case2 rest =>
    intro pr h
    rw [parseStrBody.eq_def] at h
    simp at h
    subst h
    simp
  | case3 hne =>
    intro pr h
    rw [parseStrBody.eq_def] at h
    simp [hne] at h
  | case4 h1 h2 h3 h4 rest3 a b c2 d hv4 hv3 hv2 hv1 hne ih =>
    intro pr h
    rw [parseStrBody.eq_def] at h
    simp only [if_neg hne, if_true, hv1, hv2, hv3, hv4] at h
    cases hrec : parseStrBody rest3 with
    | none =>
      rw [hrec] at h
      simp at h
    | some pr' =>
      rw [hrec, Option.map_some'] at h
      have h2 : pr.2 = pr'.2 := by
        cases h
        rfl
      have := ih pr' hrec
      rw [h2]
      simp only [List.length_cons]
      omega
  | case5 h1 h2 h3 h4 rest3 hfail hne =>
    intro pr h
    exact (hfail ((hexVal h1).getD 0) ((hexVal h2).getD 0) ((hexVal h3).getD 0)
      ((hexVal h4).getD 0) (by
        rcases hv1 : hexVal h1 with _ | a
        · rw [parseStrBody.eq_def] at h
          simp [hne, hv1] at h
        · simp [hv1])
      (by
        rcases hv2 : hexVal h2 with _ | b
        · rw [parseStrBody.eq_def] at h
          simp [hne, hv2] at h
        · simp [hv2])
      (by
        rcases hv3 : hexVal h3 with _ | c2
        · rw [parseStrBody.eq_def] at h
          simp [hne, hv3] at h
        · simp [hv3])
      (by
        rcases hv4 : hexVal h4 with _ | d
        · rw [parseStrBody.eq_def] at h
          simp [hne, hv4] at h
        · simp [hv4])).elim
  | case6 rest2 hshape hne =>
    intro pr h
    rcases rest2 with _ | ⟨x1, _ | ⟨x2, _ | ⟨x3, _ | ⟨x4, r⟩⟩⟩⟩
    · rw [parseStrBody.eq_def] at h
      simp [hne] at h
    · rw [parseStrBody.eq_def] at h
      simp [hne] at h
    · rw [parseStrBody.eq_def] at h
      simp [hne] at h
    · rw [parseStrBody.eq_def] at h
      simp [hne] at h
    · exact (hshape x1 x2 x3 x4 r rfl).elim
  | case7 e rest2 hu d hesc hne ih =>
    intro pr h
    rw [parseStrBody.eq_def] at h
    simp only [if_neg hne, if_neg hu, hesc] at h
    cases hrec : parseStrBody rest2 with
    | none =>
      rw [hrec] at h
      simp at h
    | some pr' =>
      rw [hrec, Option.map_some'] at h
      have h2 : pr.2 = pr'.2 := by
        cases h
        rfl
      have := ih pr' hrec
      rw [h2]
      simp only [List.length_cons]
      omega
  | case8 e rest2 hu hesc hne =>
    intro pr h
    rw [parseStrBody.eq_def] at h
    simp [hne, hu, hesc] at h
  | case9 c rest hq hb ih =>
    intro pr h
    rw [parseStrBody.eq_def] at h
    simp only [if_neg hq, if_neg hb] at h
    cases hrec : parseStrBody rest with
    | none =>
      rw [hrec] at h
      simp at h
    | some pr' =>
      rw [hrec, Option.map_some'] at h
      have h2 : pr.2 = pr'.2 := by
        cases h
        rfl
      have := ih pr' hrec
      rw [h2]
      simp only [List.length_cons]
      omega

/-- A parsed string consumes at least its two quotes. -/
theorem parseStr_length (s : GoStr) :
    ∀ pr : GoStr × GoStr, parseStr s = some pr → pr.2.length < s.length := by
  intro pr h
  cases s with
  | nil => cases h
  | cons c rest =>
    simp only [parseStr] at h
    by_cases hq : c = quoteChar
    · rw [if_pos hq] at h
      have := parseStrBody_length rest pr h
      simp only [List.length_cons]
      omega
    · rw [if_neg hq] at h
      cases h

/-- The element loop of the array decoder, positioned at the first character
of an element (whitespace already skipped by the caller): parse a string,
skip whitespace, then either a comma continues the loop or a closing
bracket ends the array. -/
def parseItems (s : GoStr) : Option (List GoStr × GoStr) :=
  match h1 : parseStr s with
  | none => none
  | some pr =>
    match h2 : skipWs pr.2 with
    | [] => none
    | c :: rest =>
      if c = ',' then (parseItems (skipWs rest)).map (fun r => (pr.1 :: r.1, r.2))
      else if c = ']' then some ([pr.1], rest)
      else none
termination_by s.length
decreasing_by
  have ha := parseStr_length s pr h1
  have hb := skipWs_length_le pr.2
  have hc := skipWs_length_le rest
  rw [h2] at hb
  simp only [List.length_cons] at hb
  omega

/-- A JSON array of strings: `[]`, or `[` followed by the element loop. -/
def parseArr (s : GoStr) : Option (List GoStr × GoStr) :=
  match s with
  | c :: rest =>
    if c = '[' then
      match skipWs rest with
      | d :: rest2 => if d = ']' then some ([], rest2) else parseItems (d :: rest2)
      | [] => none
    else none
  | [] => none

/-- The value of the `projects` field: a JSON `null` unmarshals into a nil
slice, anything else must be an array of strings. -/
def parseProjectsVal (s : GoStr) : Option (List GoStr × GoStr) :=
  match s with
  | 'n' :: 'u' :: 'l' :: 'l' :: rest => some ([], rest)
  | _ => parseArr s

/-- loadCache (main.go:207-218), abstracted to the file content read: the
unmarshaller for the one-field document `{"projects": <array>}` (the model
requires the field spelled exactly as the encoder writes it; other
documents Go would accept cannot be produced by `saveCache`). -/
def loadCache (data : GoStr) : Option (List GoStr) :=
  match skipWs data with
  | c :: rest1 =>
    if c = lbraceChar then
      match parseStr (skipWs rest1) with
      | some keyAndRest =>
        if keyAndRest.1 = projectsKey then
          match skipWs keyAndRest.2 with
          | d :: rest2 =>
            if d = ':' then
              match parseProjectsVal (skipWs rest2) with
              | some arrAndRest =>
                match skipWs arrAndRest.2 with
                | e :: rest3 =>
                  if e = rbraceChar ∧ skipWs rest3 = [] then some arrAndRest.1 else none
                | [] => none
              | none => none
            else none
          | [] => none
        else none
      | none => none
    else none
  | [] => none

/-! ## Round-trip of the cache codec -/

/-- Scanning a closing quote ends the string. -/
theorem parseStrBody_quote (x : GoStr) :
    parseStrBody (quoteChar :: x) = some ([], x) := by
  rw [parseStrBody.eq_def]
  simp

/-- Scanning a single-character escape decodes it and continues. -/
theorem parseStrBody_esc (e dc : Char) (h1 : ¬e = 'u') (h2 : escChar e = some dc)
    (x : GoStr) :
    parseStrBody (backslashChar :: e :: x) =
      (parseStrBody x).map (fun pr => (dc :: pr.1, pr.2)) := by
  rw [parseStrBody.eq_def]
  simp [h1, h2, (by decide : ¬backslashChar = quoteChar)]

/-- Scanning a `\u` escape decodes the four hex digits and continues. -/
theorem parseStrBody_u (d1 d2 d3 d4 : Char) (a b c2 d : Nat)
    (hv1 : hexVal d1 = some a) (hv2 : hexVal d2 = some b)
    (hv3 : hexVal d3 = some c2) (hv4 : hexVal d4 = some d) (x : GoStr) :
    parseStrBody (backslashChar :: 'u' :: d1 :: d2 :: d3 :: d4 :: x) =
      (parseStrBody x).map
        (fun pr => (Char.ofNat (((a * 16 + b) * 16 + c2) * 16 + d) :: pr.1, pr.2)) := by
  rw [parseStrBody.eq_def]
  simp [hv1, hv2, hv3, hv4, (by decide : ¬backslashChar = quoteChar)]

/-- Scanning an unescaped character keeps it and continues. -/
theorem parseStrBody_raw (c : Char) (hq : ¬c = quoteChar) (hb : ¬c = backslashChar)
    (x : GoStr) :
    parseStrBody (c :: x) = (parseStrBody x).map (fun pr => (c :: pr.1, pr.2)) := by
  rw [parseStrBody.eq_def]
  simp [hq, hb]

/-- Decoding inverts the hex digit encoding. -/
theorem hexVal_hexDigit (n : Nat) (h : n < 16) : hexVal (hexDigit n) = some n := by
  interval_cases n <;> decide

/-- The string scanner inverts the string encoder: scanning the encoded
characters followed by a closing quote yields the original string. -/
theorem parseStrBody_encode :
    ∀ (s : GoStr) (rest : GoStr),
      parseStrBody ((s.map encodeChar).flatten ++ quoteChar :: rest) = some (s, rest) := by
  intro s
  induction s with
  | nil =>
    intro rest
    simp only [List.map_nil, List.flatten_nil, List.nil_append]
    exact parseStrBody_quote rest
  | cons c s' ih =>
    intro rest
    simp only [List.map_cons, List.flatten_cons, List.append_assoc]
    by_cases h1 : c = quoteChar
    · rw [encodeChar, if_pos h1]
      rw [show ([backslashChar, quoteChar] : GoStr) ++ ((s'.map encodeChar).flatten ++
        quoteChar :: rest) = backslashChar :: quoteChar :: ((s'.map encodeChar).flatten ++
        quoteChar :: rest) from rfl]
      rw [parseStrBody_esc quoteChar quoteChar (by decide) (by decide) _, ih rest]
      simp [h1]
    · by_cases h2 : c = backslashChar
      · rw [encodeChar, if_neg h1, if_pos h2]
        rw [show ([backslashChar, backslashChar] : GoStr) ++ ((s'.map encodeChar).flatten ++
          quoteChar :: rest) = backslashChar :: backslashChar ::
          ((s'.map encodeChar).flatten ++ quoteChar :: rest) from rfl]
        rw [parseStrBody_esc backslashChar backslashChar (by decide) (by decide) _, ih rest]
        simp [h2]
      · by_cases h3 : c = nlChar
        · rw [encodeChar, if_neg h1, if_neg h2, if_pos h3]
          rw [show ([backslashChar, 'n'] : GoStr) ++ ((s'.map encodeChar).flatten ++
            quoteChar :: rest) = backslashChar :: 'n' ::
            ((s'.map encodeChar).flatten ++ quoteChar :: rest) from rfl]
          rw [parseStrBody_esc 'n' nlChar (by decide) (by decide) _, ih rest]
          simp [h3]
        · by_cases h4 : c = crChar
          · rw [encodeChar, if_neg h1, if_neg h2, if_neg h3, if_pos h4]
            rw [show ([backslashChar, 'r'] : GoStr) ++ ((s'.map encodeChar).flatten ++
              quoteChar :: rest) = backslashChar :: 'r' ::
              ((s'.map encodeChar).flatten ++ quoteChar :: rest) from rfl]
            rw [parseStrBody_esc 'r' crChar (by decide) (by decide) _, ih rest]
            simp [h4]
          · by_cases h5 : c = tabChar
            · rw [encodeChar, if_neg h1, if_neg h2, if_neg h3, if_neg h4, if_pos h5]
              rw [show ([backslashChar, 't'] : GoStr) ++ ((s'.map encodeChar).flatten ++
                quoteChar :: rest) = backslashChar :: 't' ::
                ((s'.map encodeChar).flatten ++ quoteChar :: rest) from rfl]
              rw [parseStrBody_esc 't' tabChar (by decide) (by decide) _, ih rest]
              simp [h5]
            · by_cases h6 : needsU c = true
              · rw [encodeChar, if_neg h1, if_neg h2, if_neg h3, if_neg h4, if_neg h5,
                  if_pos h6]
                rw [show ([backslashChar, 'u', hexDigit (c.toNat / 4096 % 16),
                  hexDigit (c.toNat / 256 % 16), hexDigit (c.toNat / 16 % 16),
                  hexDigit (c.toNat % 16)] : GoStr) ++ ((s'.map encodeChar).flatten ++
                  quoteChar :: rest) = backslashChar :: 'u' ::
                  hexDigit (c.toNat / 4096 % 16) :: hexDigit (c.toNat / 256 % 16) ::
                  hexDigit (c.toNat / 16 % 16) :: hexDigit (c.toNat % 16) ::
                  ((s'.map encodeChar).flatten ++ quoteChar :: rest) from rfl]
                rw [parseStrBody_u _ _ _ _ _ _ _ _
                  (hexVal_hexDigit _ (Nat.mod_lt _ (by omega)))
                  (hexVal_hexDigit _ (Nat.mod_lt _ (by omega)))
                  (hexVal_hexDigit _ (Nat.mod_lt _ (by omega)))
                  (hexVal_hexDigit _ (Nat.mod_lt _ (by omega))), ih rest]
                have hlt : c.toNat < 65536 := by
                  simp only [needsU, Bool.or_eq_true, decide_eq_true_eq] at h6
                  rcases h6 with ((((hh | hh) | hh) | hh) | hh) | hh
                  · omega
                  · rw [hh]; decide
                  · rw [hh]; decide
                  · rw [hh]; decide
                  · omega
                  · omega
                have hassemble : ((c.toNat / 4096 % 16 * 16 + c.toNat / 256 % 16) * 16 +
                    c.toNat / 16 % 16) * 16 + c.toNat % 16 = c.toNat := by
                  omega
                rw [hassemble, Char.ofNat_toNat]
                rfl
              · rw [encodeChar, if_neg h1, if_neg h2, if_neg h3, if_neg h4, if_neg h5,
                  if_neg h6]
                rw [show ([c] : GoStr) ++ ((s'.map encodeChar).flatten ++ quoteChar :: rest) =
                  c :: ((s'.map encodeChar).flatten ++ quoteChar :: rest) from rfl]
                rw [parseStrBody_raw c h1 h2, ih rest]
                rfl

/-- Parsing an encoded string consumes exactly it. -/
theorem parseStr_encode (s rest : GoStr) :
    parseStr (encodeString s ++ rest) = some (s, rest) := by
  rw [encodeString]
  rw [show (quoteChar :: (s.map encodeChar).flatten ++ [quoteChar]) ++ rest =
    quoteChar :: ((s.map encodeChar).flatten ++ quoteChar :: rest) by simp]
  rw [parseStr]
  simp only [if_pos rfl]
  exact parseStrBody_encode s rest

/-- Skipping whitespace steps over a whitespace character. -/
theorem skipWs_cons_of_ws (c : Char) (h : isWs c = true) (x : GoStr) :
    skipWs (c :: x) = skipWs x := by
  rw [skipWs, if_pos h]

/-- Skipping whitespace stops at a non-whitespace character. -/
theorem skipWs_cons_of_not (c : Char) (h : isWs c = false) (x : GoStr) :
    skipWs (c :: x) = c :: x := by
  rw [skipWs, if_neg (by simp [h])]

/-- An encoded string starts with a quote, which stops whitespace
skipping. -/
theorem skipWs_encodeString (s x : GoStr) :
    skipWs (encodeString s ++ x) = encodeString s ++ x := by
  rw [encodeString]
  rw [show (quoteChar :: (s.map encodeChar).flatten ++ [quoteChar]) ++ x =
    quoteChar :: ((s.map encodeChar).flatten ++ quoteChar :: x) by simp]
  exact skipWs_cons_of_not quoteChar (by decide) _

/-- What follows an encoded array element in the marshalled document:
either the array terminator (newline, the two-space indent of the closing
bracket, the bracket, then the remainder), or a comma, a newline, the
four-space item indent and the next element. -/
def itemsTail : List GoStr → GoStr → GoStr
  | [], rest0 => nlChar :: ' ' :: ' ' :: ']' :: rest0
  | q :: qs, rest0 => ',' :: nlChar :: ' ' :: ' ' :: ' ' :: ' ' ::
      (encodeString q ++ itemsTail qs rest0)

/-- The marshalled items followed by the array terminator decompose as the
item indent, the first element, and `itemsTail`. -/
theorem encodeItems_decomp :
    ∀ (ps : List GoStr) (p : GoStr) (rest0 : GoStr),
      encodeItems (p :: ps) ++ nlChar :: ' ' :: ' ' :: ']' :: rest0 =
        ' ' :: ' ' :: ' ' :: ' ' :: (encodeString p ++ itemsTail ps rest0) := by
  intro ps
  induction ps with
  | nil =>
    intro p rest0
    simp [encodeItems, itemsTail]
  | cons q qs ih =>
    intro p rest0
    rw [encodeItems, itemsTail]
    rw [← ih q rest0]
    simp

/-- Unfolding of `parseItems` once the string at the head of the input is
known. -/
theorem parseItems_eq_of (s p tail : GoStr) (hps : parseStr s = some (p, tail)) :
    parseItems s =
      match skipWs tail with
      | [] => none
      | c :: rest =>
        if c = ',' then (parseItems (skipWs rest)).map (fun r => (p :: r.1, r.2))
        else if c = ']' then some ([p], rest) else none := by
  rw [parseItems.eq_def]
  split
  · next h =>
    rw [h] at hps
    cases hps
  · next pr2 h =>
    rw [h] at hps
    have e1 : pr2.1 = p := by
      cases hps
      rfl
    have e2 : pr2.2 = tail := by
      cases hps
      rfl
    rw [← e1, ← e2]
    split
    · next h2 =>
      rw [h2]
    · next c rest h2 =>
      rw [h2]

/-- The element loop inverts the item encoding. -/
theorem parseItems_encode :
    ∀ (ps : List GoStr) (p : GoStr) (rest0 : GoStr),
      parseItems (encodeString p ++ itemsTail ps rest0) = some (p :: ps, rest0) := by
  intro ps
  induction ps with
  | nil =>
    intro p rest0
    rw [parseItems_eq_of _ p (itemsTail [] rest0) (parseStr_encode p _)]
    rw [itemsTail]
    have hsw : skipWs (nlChar :: ' ' :: ' ' :: ']' :: rest0) = ']' :: rest0 := by
      rw [skipWs_cons_of_ws nlChar (by decide), skipWs_cons_of_ws ' ' (by decide),
        skipWs_cons_of_ws ' ' (by decide), skipWs_cons_of_not ']' (by decide)]
    rw [hsw]
    simp [show ¬(']' : Char) = ',' from by decide]
  | cons q qs ih =>
    intro p rest0
    rw [parseItems_eq_of _ p (itemsTail (q :: qs) rest0) (parseStr_encode p _)]
    rw [itemsTail]
    have hsw : skipWs (',' :: nlChar :: ' ' :: ' ' :: ' ' :: ' ' ::
        (encodeString q ++ itemsTail qs rest0)) = ',' :: nlChar :: ' ' :: ' ' :: ' ' :: ' ' ::
        (encodeString q ++ itemsTail qs rest0) :=
      skipWs_cons_of_not ',' (by decide) _
    have hsw2 : skipWs (nlChar :: ' ' :: ' ' :: ' ' :: ' ' ::
        (encodeString q ++ itemsTail qs rest0)) = encodeString q ++ itemsTail qs rest0 := by
      rw [skipWs_cons_of_ws nlChar (by decide), skipWs_cons_of_ws ' ' (by decide),
        skipWs_cons_of_ws ' ' (by decide), skipWs_cons_of_ws ' ' (by decide),
        skipWs_cons_of_ws ' ' (by decide), skipWs_encodeString]
    rw [hsw]
    simp only [if_pos rfl]
    rw [hsw2, ih q rest0]
    rfl

/-- Unfolding of `parseArr` at a cons cell. -/
theorem parseArr_cons (c : Char) (rest : GoStr) :
    parseArr (c :: rest) =
      if c = '[' then
        match skipWs rest with
        | d :: rest2 => if d = ']' then some ([], rest2) else parseItems (d :: rest2)
        | [] => none
      else none := by
  rw [parseArr.eq_def]

/-- On input starting with `[` the projects value is parsed as an array. -/
theorem parseProjectsVal_bracket (x : GoStr) :
    parseProjectsVal ('[' :: x) = parseArr ('[' :: x) := by
  rw [parseProjectsVal.eq_def]
  split
  · next rest heq =>
    injection heq with hh _
    exact absurd hh (by decide)
  · rfl

/-- The array decoder inverts the array encoder, whatever follows. -/
theorem parseArr_encode :
    ∀ (ps : List GoStr) (rest0 : GoStr), parseArr (encodeArr ps ++ rest0) = some (ps, rest0) := by
  intro ps rest0
  cases ps with
  | nil =>
    rw [encodeArr]
    rw [show (['[', ']'] : GoStr) ++ rest0 = '[' :: ']' :: rest0 from rfl]
    rw [parseArr_cons, if_pos rfl]
    rw [skipWs_cons_of_not ']' (by decide)]
    simp
  | cons p ps' =>
    rw [encodeArr]
    rw [show ('[' :: nlChar :: (encodeItems (p :: ps') ++ nlChar :: ' ' :: ' ' :: [']'])) ++
      rest0 = '[' :: nlChar :: (encodeItems (p :: ps') ++ nlChar :: ' ' :: ' ' :: ']' :: rest0)
      by simp]
    rw [encodeItems_decomp ps' p rest0]
    rw [parseArr_cons, if_pos rfl]
    have hsw : skipWs (nlChar :: ' ' :: ' ' :: ' ' :: ' ' ::
        (encodeString p ++ itemsTail ps' rest0)) = encodeString p ++ itemsTail ps' rest0 := by
      rw [skipWs_cons_of_ws nlChar (by decide), skipWs_cons_of_ws ' ' (by decide),
        skipWs_cons_of_ws ' ' (by decide), skipWs_cons_of_ws ' ' (by decide),
        skipWs_cons_of_ws ' ' (by decide), skipWs_encodeString]
    rw [hsw]
    obtain ⟨y, hy⟩ : ∃ y, encodeString p ++ itemsTail ps' rest0 = quoteChar :: y :=
      ⟨(p.map encodeChar).flatten ++ [quoteChar] ++ itemsTail ps' rest0, by simp [encodeString]⟩
    rw [hy]
    show (if quoteChar = ']' then some ([], y) else parseItems (quoteChar :: y)) =
      some (p :: ps', rest0)
    rw [if_neg (by decide), ← hy, parseItems_encode ps' p rest0]

/-! ## Claim C9: the cache round-trips -/

/-- C9 (confirmed).  For every list of path strings, including the empty
list, writing the cache with `saveCache` and reading it back with
`loadCache` returns the same list. -/
theorem saveCache_loadCache_roundtrip (P : List GoStr) :
    loadCache (saveCache P) = some P := by
  have hsw1 : skipWs (nlChar :: ' ' :: ' ' :: (encodeString projectsKey ++
      (':' :: ' ' :: (encodeArr P ++ nlChar :: [rbraceChar])))) =
      encodeString projectsKey ++ (':' :: ' ' :: (encodeArr P ++ nlChar :: [rbraceChar])) := by
    rw [skipWs_cons_of_ws nlChar (by decide), skipWs_cons_of_ws ' ' (by decide),
      skipWs_cons_of_ws ' ' (by decide), skipWs_encodeString]
  have hkey := parseStr_encode projectsKey
    (':' :: ' ' :: (encodeArr P ++ nlChar :: [rbraceChar]))
  have hsw2 : skipWs (':' :: ' ' :: (encodeArr P ++ nlChar :: [rbraceChar])) =
      ':' :: ' ' :: (encodeArr P ++ nlChar :: [rbraceChar]) :=
    skipWs_cons_of_not ':' (by decide) _
  obtain ⟨y, hy⟩ : ∃ y, encodeArr P ++ nlChar :: [rbraceChar] = '[' :: y := by
    cases P with
    | nil => exact ⟨']' :: nlChar :: [rbraceChar], rfl⟩
    | cons p ps =>
      exact ⟨nlChar :: (encodeItems (p :: ps) ++ nlChar :: ' ' :: ' ' :: [']']) ++
        nlChar :: [rbraceChar], by simp [encodeArr]⟩
  have hsw3 : skipWs (' ' :: (encodeArr P ++ nlChar :: [rbraceChar])) = '[' :: y := by
    rw [skipWs_cons_of_ws ' ' (by decide), hy, skipWs_cons_of_not '[' (by decide)]
  have hval : parseProjectsVal (skipWs (' ' :: (encodeArr P ++ nlChar :: [rbraceChar]))) =
      some (P, nlChar :: [rbraceChar]) := by
    rw [hsw3, parseProjectsVal_bracket, ← hy, parseArr_encode]
  have hsw4 : skipWs (nlChar :: [rbraceChar]) = [rbraceChar] := by
    rw [skipWs_cons_of_ws nlChar (by decide), skipWs_cons_of_not rbraceChar (by decide)]
  rw [saveCache, loadCache.eq_def]
  rw [skipWs_cons_of_not lbraceChar (by decide)]
  simp [hsw1, hkey, hsw2, hval, hsw4, show skipWs ([] : GoStr) = [] from rfl]
